import Mathlib

/-!
Verification of the HDL-to-WebAssembly codegen and simulation runtime
(`hdlwasm.ts`) of the VGA playground: the type/size model, the state
layout, the wide-integer chunk codegen, the host state proxy, and the
runtime driver, embedded shallowly from the TypeScript source.

Wide (> 64 bit) values live in linear memory as arrays of little-endian
32-bit chunks; we model them as `List Nat` with every element `< 2 ^ 32`.
-/

/-- Number of bits in one storage chunk of a wide value. -/
def CHUNKBITS : Nat := 32

/-- `2 ^ 32`, the modulus of one 32-bit chunk. -/
def CHUNKMOD : Nat := 4294967296

/-- IR data types consumed from the frontend (`hdltypes`): a packed logic
    vector `{left, right, signed}` (width `left - right + 1`, `right` is
    always 0 in this core) or an array `{subtype, low, high}`. -/
inductive HDLDataType where
  | logic (left right : Nat) (signed : Bool)
  | arr (subtype : HDLDataType) (low high : Nat)
deriving DecidableEq, Repr

/-- `getDataTypeSize` (hdlwasm): byte size of a data type.  Logic widths:
    1 byte if `left ≤ 7`, 2 if `≤ 15`, 4 if `≤ 31`, 8 if `≤ 63`, else
    `(left >> 6) * 8 + 8` ("64-bit words").  Array:
    `(|high - low| + 1) * size(subtype)`. -/
def getDataTypeSize : HDLDataType → Nat
  | .logic left _ _ =>
    if left ≤ 7 then 1
    else if left ≤ 15 then 2
    else if left ≤ 31 then 4
    else if left ≤ 63 then 8
    else (left >>> 6) * 8 + 8
  | .arr subtype low high => (max high low - min high low + 1) * getDataTypeSize subtype

/-- `isReferenceType` (hdlwasm): sizes over 8 bytes are stored by reference. -/
def isReferenceType (dt : HDLDataType) : Bool := getDataTypeSize dt > 8

/-- `isWideType` (hdlwasm): a logic type wider than 64 bits. -/
def isWideType : HDLDataType → Bool
  | .logic left _ _ => left > 63
  | .arr _ _ _ => false

/-- `getNumChunks` (hdlwasm): `ceil((left + 1) / 32)` 32-bit chunks for a
    logic type; the source throws for non-logic types, modelled as `none`. -/
def getNumChunks : HDLDataType → Option Nat
  | .logic left _ _ => some ((left + 1 + 31) / 32)
  | .arr _ _ _ => none

/-- C2 counterexample: for the 65-bit logic type (`left = 64`) the size
    model reports `(64 >> 6) * 8 + 8 = 16` bytes, not
    `ceil(65/32) * 4 = 12` as the claim states. -/
theorem C2_counterexample :
    getDataTypeSize (.logic 64 0 false) = 16 ∧
    (64 + 1 + 31) / 32 * 4 = 12 ∧
    getDataTypeSize (.logic 64 0 false) ≠ (64 + 1 + 31) / 32 * 4 := by
  decide

/-- C2 amended: for every logic data type of width `W = left + 1 > 64`
    bits, the size model reports `ceil(W/64) * 8` bytes (wide values are
    padded to whole 64-bit words), and the entry is manipulated as
    `ceil(W/32)` little-endian 32-bit chunks. -/
theorem C2_wide_size_and_chunks (left right : Nat) (signed : Bool)
    (h : 64 ≤ left) :
    getDataTypeSize (.logic left right signed) = (left + 1 + 63) / 64 * 8 ∧
    getNumChunks (.logic left right signed) = some ((left + 1 + 31) / 32) := by
  constructor
  · have h7 : ¬ left ≤ 7 := by omega
    have h15 : ¬ left ≤ 15 := by omega
    have h31 : ¬ left ≤ 31 := by omega
    have h63 : ¬ left ≤ 63 := by omega
    simp only [getDataTypeSize, h7, h15, h31, h63, if_false]
    rw [Nat.shiftRight_eq_div_pow]
    have : (2 : Nat) ^ 6 = 64 := by norm_num
    rw [this]
    omega
  · rfl

/-- Witness for C2 at the 65-bit type. -/
theorem C2_wide_size_and_chunks_witness :
    64 ≤ 64 ∧
    (getDataTypeSize (.logic 64 0 false) = (64 + 1 + 63) / 64 * 8 ∧
      getNumChunks (.logic 64 0 false) = some ((64 + 1 + 31) / 32)) :=
  ⟨by decide, C2_wide_size_and_chunks 64 0 false (by decide)⟩

/-! ### Chunk arrays: little-endian 32-bit limbs in linear memory -/

/-- The numeric value of a little-endian list of 32-bit chunks. -/
def chunksToNat : List Nat → Nat
  | [] => 0
  | c :: rest => c + CHUNKMOD * chunksToNat rest

/-- Every chunk fits in 32 bits, as the generated stores guarantee. -/
def chunksNormal (l : List Nat) : Prop := ∀ c ∈ l, c < CHUNKMOD

instance (l : List Nat) : Decidable (chunksNormal l) := by
  unfold chunksNormal
  infer_instance

theorem CHUNKMOD_eq : CHUNKMOD = 2 ^ 32 := by norm_num [CHUNKMOD]

theorem CHUNKMOD_pow (k : Nat) : CHUNKMOD ^ k = 2 ^ (32 * k) := by
  rw [CHUNKMOD_eq, ← pow_mul]

theorem chunksNormal_nil : chunksNormal [] := by intro c hc; cases hc

theorem chunksNormal_cons {c : Nat} {l : List Nat} (hc : c < CHUNKMOD)
    (hl : chunksNormal l) : chunksNormal (c :: l) := by
  intro x hx
  rcases List.mem_cons.mp hx with h | h
  · exact h ▸ hc
  · exact hl x h

theorem chunksNormal_of_cons {c : Nat} {l : List Nat}
    (h : chunksNormal (c :: l)) : c < CHUNKMOD ∧ chunksNormal l :=
  ⟨h c (List.mem_cons_self c l), fun x hx => h x (List.mem_cons_of_mem c hx)⟩

theorem chunksToNat_lt {l : List Nat} (h : chunksNormal l) :
    chunksToNat l < CHUNKMOD ^ l.length := by
  induction l with
  | nil => simp [chunksToNat]
  | cons c rest ih =>
    obtain ⟨hc, hrest⟩ := chunksNormal_of_cons h
    have hr := ih hrest
    simp only [chunksToNat, List.length_cons, pow_succ]
    calc c + CHUNKMOD * chunksToNat rest
        < CHUNKMOD + CHUNKMOD * chunksToNat rest := by omega
      _ = CHUNKMOD * (chunksToNat rest + 1) := by ring
      _ ≤ CHUNKMOD * CHUNKMOD ^ rest.length := by
          exact Nat.mul_le_mul_left _ (by omega)
      _ = CHUNKMOD ^ rest.length * CHUNKMOD := by ring

/-- Splitting off one low chunk from a modulus. -/
theorem add_mul_mod_chunk (x y k : Nat) (hx : x < CHUNKMOD) :
    (x + CHUNKMOD * y) % CHUNKMOD ^ (k + 1) = x + CHUNKMOD * (y % CHUNKMOD ^ k) := by
  have hsplit : y = y % CHUNKMOD ^ k + CHUNKMOD ^ k * (y / CHUNKMOD ^ k) :=
    (Nat.mod_add_div _ _).symm
  have hmlt : y % CHUNKMOD ^ k < CHUNKMOD ^ k :=
    Nat.mod_lt _ (Nat.pos_pow_of_pos _ (by norm_num [CHUNKMOD]))
  have harg : x + CHUNKMOD * y
      = x + CHUNKMOD * (y % CHUNKMOD ^ k)
        + (y / CHUNKMOD ^ k) * CHUNKMOD ^ (k + 1) := by
    conv_lhs => rw [hsplit]
    ring
  calc (x + CHUNKMOD * y) % CHUNKMOD ^ (k + 1)
      = (x + CHUNKMOD * (y % CHUNKMOD ^ k)
          + (y / CHUNKMOD ^ k) * CHUNKMOD ^ (k + 1)) % CHUNKMOD ^ (k + 1) := by
        rw [harg]
    _ = (x + CHUNKMOD * (y % CHUNKMOD ^ k)) % CHUNKMOD ^ (k + 1) := by
        rw [Nat.add_mul_mod_self_right]
    _ = x + CHUNKMOD * (y % CHUNKMOD ^ k) := by
        apply Nat.mod_eq_of_lt
        rw [pow_succ]
        calc x + CHUNKMOD * (y % CHUNKMOD ^ k)
            < CHUNKMOD + CHUNKMOD * (y % CHUNKMOD ^ k) := by omega
          _ = CHUNKMOD * (y % CHUNKMOD ^ k + 1) := by ring
          _ ≤ CHUNKMOD * CHUNKMOD ^ k := Nat.mul_le_mul_left _ (by omega)
          _ = CHUNKMOD ^ k * CHUNKMOD := by ring

theorem chunksToNat_append (a b : List Nat) :
    chunksToNat (a ++ b) = chunksToNat a + CHUNKMOD ^ a.length * chunksToNat b := by
  induction a with
  | nil => simp [chunksToNat]
  | cons c rest ih =>
    simp only [List.cons_append, chunksToNat, List.append_eq, List.length_cons, pow_succ]
    rw [ih]
    ring

theorem chunksToNat_replicate_zero (n : Nat) :
    chunksToNat (List.replicate n 0) = 0 := by
  induction n with
  | zero => rfl
  | succ k ih => simp [List.replicate_succ, chunksToNat, ih]

theorem chunksToNat_drop {l : List Nat} (h : chunksNormal l) (k : Nat) :
    chunksToNat (l.drop k) = chunksToNat l / CHUNKMOD ^ k := by
  induction k generalizing l with
  | zero => simp
  | succ k ih =>
    cases l with
    | nil => simp [chunksToNat, Nat.zero_div]
    | cons c rest =>
      obtain ⟨hc, hrest⟩ := chunksNormal_of_cons h
      have hstep : chunksToNat (c :: rest) / CHUNKMOD = chunksToNat rest := by
        simp only [chunksToNat]
        rw [Nat.add_mul_div_left _ _ (by norm_num [CHUNKMOD])]
        rw [Nat.div_eq_of_lt hc]
        omega
      calc chunksToNat ((c :: rest).drop (k + 1))
          = chunksToNat (rest.drop k) := by simp
        _ = chunksToNat rest / CHUNKMOD ^ k := ih hrest
        _ = chunksToNat (c :: rest) / CHUNKMOD / CHUNKMOD ^ k := by rw [hstep]
        _ = chunksToNat (c :: rest) / CHUNKMOD ^ (k + 1) := by
            rw [Nat.div_div_eq_div_mul, pow_succ, mul_comm (CHUNKMOD ^ k) CHUNKMOD]

theorem chunksToNat_take {l : List Nat} (h : chunksNormal l) (k : Nat) :
    chunksToNat (l.take k) = chunksToNat l % CHUNKMOD ^ k := by
  induction k generalizing l with
  | zero => simp [chunksToNat, Nat.mod_one]
  | succ k ih =>
    cases l with
    | nil => simp [chunksToNat]
    | cons c rest =>
      obtain ⟨hc, hrest⟩ := chunksNormal_of_cons h
      calc chunksToNat ((c :: rest).take (k + 1))
          = c + CHUNKMOD * chunksToNat (rest.take k) := by
            simp [chunksToNat]
        _ = c + CHUNKMOD * (chunksToNat rest % CHUNKMOD ^ k) := by rw [ih hrest]
        _ = (c + CHUNKMOD * chunksToNat rest) % CHUNKMOD ^ (k + 1) := by
            rw [add_mul_mod_chunk _ _ _ hc]
        _ = chunksToNat (c :: rest) % CHUNKMOD ^ (k + 1) := rfl

theorem chunksToNat_inj {a b : List Nat} (ha : chunksNormal a) (hb : chunksNormal b)
    (hlen : a.length = b.length) (h : chunksToNat a = chunksToNat b) : a = b := by
  induction a generalizing b with
  | nil => cases b with
    | nil => rfl
    | cons _ _ => simp at hlen
  | cons c rest ih =>
    cases b with
    | nil => simp at hlen
    | cons d tail =>
      obtain ⟨hc, hrest⟩ := chunksNormal_of_cons ha
      obtain ⟨hd, htail⟩ := chunksNormal_of_cons hb
      simp only [chunksToNat] at h
      have h1 : c = (c + CHUNKMOD * chunksToNat rest) % CHUNKMOD := by
        rw [Nat.add_mul_mod_self_left, Nat.mod_eq_of_lt hc]
      have h2 : d = (d + CHUNKMOD * chunksToNat tail) % CHUNKMOD := by
        rw [Nat.add_mul_mod_self_left, Nat.mod_eq_of_lt hd]
      have hcd : c = d := by rw [h1, h, ← h2]
      have hmul : CHUNKMOD * chunksToNat rest = CHUNKMOD * chunksToNat tail := by
        omega
      have htails : chunksToNat rest = chunksToNat tail :=
        Nat.eq_of_mul_eq_mul_left (by norm_num [CHUNKMOD]) hmul
      have := ih hrest htail (by simpa using hlen) htails
      rw [hcd, this]

/-! ### Bit-level helpers for 32-bit chunk arithmetic -/

/-- Disjoint `or` is addition: the generated code combines a value whose
    low `n` bits are clear with one below `2 ^ n` using `i32.or`. -/
theorem lor_disjoint_eq_add {n a b : Nat} (ha : a % 2 ^ n = 0) (hb : b < 2 ^ n) :
    a ||| b = a + b := by
  obtain ⟨q, hq⟩ : 2 ^ n ∣ a := Nat.dvd_iff_mod_eq_zero.mpr ha
  subst hq
  apply Nat.eq_of_testBit_eq
  intro j
  rw [Nat.testBit_lor, Nat.testBit_mul_pow_two_add _ hb, Nat.testBit_mul_pow_two]
  rcases Nat.lt_or_ge j n with hj | hj
  · simp [hj, Nat.not_le_of_lt hj]
  · have hbj : b.testBit j = false :=
      Nat.testBit_lt_two_pow (lt_of_lt_of_le hb (Nat.pow_le_pow_right (by norm_num) hj))
    simp [hj, Nat.not_lt_of_le hj, hbj]

theorem shiftRight_lt_chunk {x : Nat} (hx : x < CHUNKMOD) {bs : Nat} (hbs : bs ≤ 32) :
    x >>> (32 - bs) < 2 ^ bs := by
  rw [Nat.shiftRight_eq_div_pow]
  apply Nat.div_lt_of_lt_mul
  calc x < CHUNKMOD := hx
    _ = 2 ^ (32 - bs) * 2 ^ bs := by
        rw [CHUNKMOD_eq, ← pow_add]
        congr 1
        omega

theorem shiftLeft_mod_chunk (x bs : Nat) (hbs : bs ≤ 32) :
    (x <<< bs) % CHUNKMOD = 2 ^ bs * (x % 2 ^ (32 - bs)) := by
  rw [Nat.shiftLeft_eq, CHUNKMOD_eq]
  have h32 : (2 : Nat) ^ 32 = 2 ^ (32 - bs) * 2 ^ bs := by
    rw [← pow_add]
    congr 1
    omega
  rw [h32, Nat.mul_mod_mul_right, mul_comm]

theorem two_pow_mul_decomp (x bs : Nat) (hx : x < CHUNKMOD) (hbs : bs ≤ 32) :
    2 ^ bs * x = CHUNKMOD * (x >>> (32 - bs)) + 2 ^ bs * (x % 2 ^ (32 - bs)) := by
  rw [Nat.shiftRight_eq_div_pow]
  have hC : CHUNKMOD = 2 ^ bs * 2 ^ (32 - bs) := by
    rw [CHUNKMOD_eq, ← pow_add]
    congr 1
    omega
  calc 2 ^ bs * x
      = 2 ^ bs * (2 ^ (32 - bs) * (x / 2 ^ (32 - bs)) + x % 2 ^ (32 - bs)) := by
        rw [Nat.div_add_mod]
    _ = CHUNKMOD * (x / 2 ^ (32 - bs)) + 2 ^ bs * (x % 2 ^ (32 - bs)) := by
        rw [hC]; ring

/-! ### Wide left shift by a constant (`HDLModuleWASM.wideShiftLeftConst`) -/

/-- The per-chunk combine of `wideShiftLeftConst` for `bitShift = bs ≠ 0`:
    destination chunk `i ≥ chunkShift` is
    `(src[srcIdx] << bs) | (src[srcIdx - 1] >> (32 - bs))` with
    `srcIdx = i - chunkShift`, the second operand dropped when
    `srcIdx = 0`.  `prev` carries the lower source neighbour (initially 0,
    and `0 >>> (32 - bs) = 0`) while walking the source from low chunk to
    high. -/
def shlCombine (bs prev : Nat) : List Nat → List Nat
  | [] => []
  | x :: rest => ((x <<< bs) % CHUNKMOD ||| prev >>> (32 - bs)) :: shlCombine bs x rest

/-- `HDLModuleWASM.wideShiftLeftConst`: wide left shift of the chunk array
    `src` by the constant `s`; `chunkShift = s / 32`, `bitShift = s % 32`.
    Destination chunk `i` is 0 for `i < chunkShift` (below the shifted
    range), a straight copy of `src[i - chunkShift]` when `bitShift = 0`,
    and the two-chunk combine otherwise.  (The source walks `i` from the
    top chunk down only so that an aliased destination is safe; the chunks
    written are the ones listed here.) -/
def wideShiftLeftConst (src : List Nat) (s : Nat) : List Nat :=
  let chunkShift := s / 32
  let bitShift := s % 32
  let shifted := if bitShift = 0 then src else shlCombine bitShift 0 src
  List.replicate (min chunkShift src.length) 0 ++ shifted.take (src.length - chunkShift)

theorem shlCombine_length (bs prev : Nat) (l : List Nat) :
    (shlCombine bs prev l).length = l.length := by
  induction l generalizing prev with
  | nil => rfl
  | cons x rest ih => simp [shlCombine, ih]

theorem shlCombine_normal (bs : Nat) :
    ∀ (l : List Nat) (prev : Nat), prev < CHUNKMOD → chunksNormal l →
      chunksNormal (shlCombine bs prev l) := by
  intro l
  induction l with
  | nil => intro prev _ _; exact chunksNormal_nil
  | cons x rest ih =>
    intro prev hprev hl
    obtain ⟨hx, hrest⟩ := chunksNormal_of_cons hl
    refine chunksNormal_cons ?_ (ih x hx hrest)
    rw [CHUNKMOD_eq]
    apply Nat.or_lt_two_pow
    · rw [← CHUNKMOD_eq]
      exact Nat.mod_lt _ (by norm_num [CHUNKMOD])
    · rw [Nat.shiftRight_eq_div_pow, ← CHUNKMOD_eq]
      exact lt_of_le_of_lt (Nat.div_le_self _ _) hprev

theorem chunksNormal_take {l : List Nat} (h : chunksNormal l) (k : Nat) :
    chunksNormal (l.take k) :=
  fun c hc => h c (List.take_subset _ _ hc)

theorem chunksNormal_drop {l : List Nat} (h : chunksNormal l) (k : Nat) :
    chunksNormal (l.drop k) :=
  fun c hc => h c (List.drop_subset _ _ hc)

theorem chunksNormal_append {a b : List Nat} (ha : chunksNormal a)
    (hb : chunksNormal b) : chunksNormal (a ++ b) := by
  intro c hc
  rcases List.mem_append.mp hc with h | h
  · exact ha c h
  · exact hb c h

theorem chunksNormal_replicate_zero (n : Nat) :
    chunksNormal (List.replicate n 0) := by
  intro c hc
  rw [List.eq_of_mem_replicate hc]
  norm_num [CHUNKMOD]

theorem shlCombine_toNat (bs : Nat) (hbs0 : bs ≠ 0) (hbs : bs < 32) :
    ∀ (l : List Nat) (prev : Nat), prev < CHUNKMOD → chunksNormal l →
      chunksToNat (shlCombine bs prev l)
        = (prev >>> (32 - bs) + 2 ^ bs * chunksToNat l) % CHUNKMOD ^ l.length := by
  intro l
  induction l with
  | nil =>
    intro prev _ _
    simp [shlCombine, chunksToNat, Nat.mod_one]
  | cons x rest ih =>
    intro prev hprev hl
    obtain ⟨hx, hrest⟩ := chunksNormal_of_cons hl
    have hc0 : (x <<< bs) % CHUNKMOD ||| prev >>> (32 - bs)
        = 2 ^ bs * (x % 2 ^ (32 - bs)) + prev >>> (32 - bs) := by
      rw [shiftLeft_mod_chunk x bs (le_of_lt hbs)]
      exact lor_disjoint_eq_add (n := bs) (Nat.mul_mod_right _ _)
        (shiftRight_lt_chunk hprev (le_of_lt hbs))
    have hc0lt : 2 ^ bs * (x % 2 ^ (32 - bs)) + prev >>> (32 - bs) < CHUNKMOD := by
      have h1 : x % 2 ^ (32 - bs) < 2 ^ (32 - bs) :=
        Nat.mod_lt _ (Nat.pos_pow_of_pos _ (by norm_num))
      have h2 : prev >>> (32 - bs) < 2 ^ bs :=
        shiftRight_lt_chunk hprev (le_of_lt hbs)
      have h4 : 2 ^ bs * 2 ^ (32 - bs) = CHUNKMOD := by
        rw [CHUNKMOD_eq, ← pow_add]
        congr 1
        omega
      calc 2 ^ bs * (x % 2 ^ (32 - bs)) + prev >>> (32 - bs)
          < 2 ^ bs * (x % 2 ^ (32 - bs)) + 2 ^ bs := by omega
        _ = 2 ^ bs * (x % 2 ^ (32 - bs) + 1) := by ring
        _ ≤ 2 ^ bs * 2 ^ (32 - bs) := Nat.mul_le_mul_left _ (by omega)
        _ = CHUNKMOD := h4
    have hval : prev >>> (32 - bs) + 2 ^ bs * chunksToNat (x :: rest)
        = 2 ^ bs * (x % 2 ^ (32 - bs)) + prev >>> (32 - bs)
          + CHUNKMOD * (x >>> (32 - bs) + 2 ^ bs * chunksToNat rest) := by
      show prev >>> (32 - bs) + 2 ^ bs * (x + CHUNKMOD * chunksToNat rest) = _
      rw [mul_add, two_pow_mul_decomp x bs hx (le_of_lt hbs)]
      ring
    calc chunksToNat (shlCombine bs prev (x :: rest))
        = ((x <<< bs) % CHUNKMOD ||| prev >>> (32 - bs))
          + CHUNKMOD * chunksToNat (shlCombine bs x rest) := rfl
      _ = 2 ^ bs * (x % 2 ^ (32 - bs)) + prev >>> (32 - bs)
          + CHUNKMOD * ((x >>> (32 - bs) + 2 ^ bs * chunksToNat rest)
            % CHUNKMOD ^ rest.length) := by
          rw [hc0, ih x hx hrest]
      _ = (2 ^ bs * (x % 2 ^ (32 - bs)) + prev >>> (32 - bs)
          + CHUNKMOD * (x >>> (32 - bs) + 2 ^ bs * chunksToNat rest))
            % CHUNKMOD ^ (rest.length + 1) := by
          rw [add_mul_mod_chunk _ _ _ hc0lt]
      _ = (prev >>> (32 - bs) + 2 ^ bs * chunksToNat (x :: rest))
            % CHUNKMOD ^ (x :: rest).length := by
          rw [hval, List.length_cons]

/-- Padding with `chunkShift` low zero chunks and truncating to the
    original chunk count multiplies the value by `CHUNKMOD ^ chunkShift`
    modulo the full width. -/
theorem padZero_take_toNat (l : List Nat) (hl : chunksNormal l) (cs n : Nat)
    (hlen : l.length = n) :
    chunksToNat (List.replicate (min cs n) 0 ++ l.take (n - cs))
      = chunksToNat l * CHUNKMOD ^ cs % CHUNKMOD ^ n := by
  rcases le_or_lt cs n with hcs | hcs
  · rw [min_eq_left hcs, chunksToNat_append, chunksToNat_replicate_zero,
      chunksToNat_take hl, List.length_replicate]
    have hsplit : CHUNKMOD ^ (n - cs) * CHUNKMOD ^ cs = CHUNKMOD ^ n := by
      rw [← pow_add]
      congr 1
      omega
    calc 0 + CHUNKMOD ^ cs * (chunksToNat l % CHUNKMOD ^ (n - cs))
        = chunksToNat l % CHUNKMOD ^ (n - cs) * CHUNKMOD ^ cs := by ring
      _ = chunksToNat l * CHUNKMOD ^ cs % (CHUNKMOD ^ (n - cs) * CHUNKMOD ^ cs) :=
          (Nat.mul_mod_mul_right _ _ _).symm
      _ = chunksToNat l * CHUNKMOD ^ cs % CHUNKMOD ^ n := by rw [hsplit]
  · have h0 : n - cs = 0 := by omega
    rw [min_eq_right (le_of_lt hcs), h0]
    simp only [List.take_zero, List.append_nil, chunksToNat_replicate_zero]
    symm
    have hdvd : CHUNKMOD ^ n ∣ chunksToNat l * CHUNKMOD ^ cs :=
      Dvd.dvd.mul_left (pow_dvd_pow _ (le_of_lt hcs)) _
    exact Nat.dvd_iff_mod_eq_zero.mp hdvd

theorem wideShiftLeftConst_length (src : List Nat) (s : Nat) :
    (wideShiftLeftConst src s).length = src.length := by
  unfold wideShiftLeftConst
  by_cases hb : s % 32 = 0 <;>
    simp [hb, shlCombine_length, List.length_take, List.length_replicate] <;>
    omega

theorem wideShiftLeftConst_normal (src : List Nat) (s : Nat)
    (hsrc : chunksNormal src) : chunksNormal (wideShiftLeftConst src s) := by
  unfold wideShiftLeftConst
  by_cases hb : s % 32 = 0
  · simp only [hb, if_pos rfl]
    exact chunksNormal_append (chunksNormal_replicate_zero _)
      (chunksNormal_take hsrc _)
  · simp only [hb, if_neg hb]
    exact chunksNormal_append (chunksNormal_replicate_zero _)
      (chunksNormal_take
        (shlCombine_normal _ src 0 (by norm_num [CHUNKMOD]) hsrc) _)

/-- Value semantics of the generated constant wide left shift: the result
    is `value * 2 ^ s` truncated to the chunk array's full bit width. -/
theorem wideShiftLeftConst_toNat (src : List Nat) (s : Nat)
    (hsrc : chunksNormal src) :
    chunksToNat (wideShiftLeftConst src s)
      = chunksToNat src * 2 ^ s % CHUNKMOD ^ src.length := by
  unfold wideShiftLeftConst
  dsimp only
  by_cases hb : s % 32 = 0
  · rw [if_pos hb]
    rw [padZero_take_toNat src hsrc (s / 32) src.length rfl]
    congr 2
    rw [CHUNKMOD_pow]
    congr 1
    omega
  · rw [if_neg hb]
    have hlen := shlCombine_length (s % 32) 0 src
    have hnorm := shlCombine_normal (s % 32) src 0 (by norm_num [CHUNKMOD]) hsrc
    rw [padZero_take_toNat _ hnorm (s / 32) src.length hlen]
    rw [shlCombine_toNat (s % 32) hb (Nat.mod_lt _ (by norm_num)) src 0
      (by norm_num [CHUNKMOD]) hsrc]
    rw [Nat.zero_shiftRight, Nat.zero_add]
    rw [Nat.mod_mul_mod]
    congr 1
    have hexp : (2 : Nat) ^ (s % 32) * CHUNKMOD ^ (s / 32) = 2 ^ s := by
      rw [CHUNKMOD_pow, ← pow_add]
      congr 1
      omega
    calc 2 ^ (s % 32) * chunksToNat src * CHUNKMOD ^ (s / 32)
        = chunksToNat src * (2 ^ (s % 32) * CHUNKMOD ^ (s / 32)) := by ring
      _ = chunksToNat src * 2 ^ s := by rw [hexp]

/-! ### Wide right shift by a constant (`HDLModuleWASM.wideShiftRightConst`) -/

/-- The per-chunk combine of `wideShiftRightConst` for `bitShift = bs ≠ 0`,
    walking the in-range source chunks from low to high: destination chunk
    `i` is `(src[srcIdx] >> bs) | (src[srcIdx + 1] << (32 - bs))` with
    `srcIdx = i + chunkShift`; for the topmost chunk (`srcIdx + 1` out of
    range) the upper neighbour is the sign-extension chunk `ext`
    (`0` for an unsigned shift, making the or a no-op as in the source's
    `value = lowPart` branch). -/
def shrCombine (bs ext : Nat) : List Nat → List Nat
  | [] => []
  | [x] => [x >>> bs ||| (ext <<< (32 - bs)) % CHUNKMOD]
  | x :: y :: rest => (x >>> bs ||| (y <<< (32 - bs)) % CHUNKMOD) :: shrCombine bs ext (y :: rest)

/-- `HDLModuleWASM.wideShiftRightConst`: wide right shift of the chunk
    array `src` by the constant `s`; `chunkShift = s / 32`,
    `bitShift = s % 32`.  `signExtend` is the arithmetic 31-bit right
    shift of the top chunk (all-ones iff signed and the top chunk's bit 31
    is set, else zero).  Destination chunk `i` copies
    `src[i + chunkShift]` when `bitShift = 0`, combines two source chunks
    otherwise, and chunks above the shifted range hold `signExtend`. -/
def wideShiftRightConst (src : List Nat) (s : Nat) (signed : Bool) : List Nat :=
  let chunkShift := s / 32
  let bitShift := s % 32
  let signExtend := if signed then
      (if 2 ^ 31 ≤ src.getLast?.getD 0 then CHUNKMOD - 1 else 0)
    else 0
  let core := if bitShift = 0 then src.drop chunkShift
    else shrCombine bitShift signExtend (src.drop chunkShift)
  core ++ List.replicate (min chunkShift src.length) signExtend

/-- Dividing a chunk-decomposed value by `2 ^ bs` chunk by chunk. -/
theorem chunk_shift_div (x t bs : Nat) (hx : x < CHUNKMOD) (hbs : bs < 32) :
    (x + CHUNKMOD * t) / 2 ^ bs
      = x >>> bs + 2 ^ (32 - bs) * (t % 2 ^ bs) + CHUNKMOD * (t / 2 ^ bs) := by
  have hpos : (0 : Nat) < 2 ^ bs := Nat.pos_pow_of_pos _ (by norm_num)
  have hC : CHUNKMOD = 2 ^ bs * 2 ^ (32 - bs) := by
    rw [CHUNKMOD_eq, ← pow_add]
    congr 1
    omega
  have hsplit : x + CHUNKMOD * t
      = x + 2 ^ bs * (2 ^ (32 - bs) * (t % 2 ^ bs)) + 2 ^ bs * (CHUNKMOD * (t / 2 ^ bs)) := by
    calc x + CHUNKMOD * t
        = x + CHUNKMOD * (t % 2 ^ bs + 2 ^ bs * (t / 2 ^ bs)) := by
          rw [Nat.mod_add_div]
      _ = x + CHUNKMOD * (t % 2 ^ bs) + 2 ^ bs * (CHUNKMOD * (t / 2 ^ bs)) := by ring
      _ = x + 2 ^ bs * (2 ^ (32 - bs) * (t % 2 ^ bs)) + 2 ^ bs * (CHUNKMOD * (t / 2 ^ bs)) := by
          rw [hC]; ring
  rw [hsplit, Nat.shiftRight_eq_div_pow]
  rw [Nat.add_mul_div_left _ _ hpos, Nat.add_mul_div_left _ _ hpos]

theorem shrCombine_toNat_zero (bs : Nat) (hbs0 : bs ≠ 0) (hbs : bs < 32) :
    ∀ (l : List Nat), chunksNormal l →
      chunksToNat (shrCombine bs 0 l) = chunksToNat l / 2 ^ bs := by
  intro l
  induction l with
  | nil => intro _; simp [shrCombine, chunksToNat]
  | cons x rest ih =>
    intro hl
    obtain ⟨hx, hrest⟩ := chunksNormal_of_cons hl
    cases rest with
    | nil =>
      simp [shrCombine, Nat.zero_shiftLeft, chunksToNat, Nat.shiftRight_eq_div_pow]
    | cons y rest2 =>
      obtain ⟨hy, _⟩ := chunksNormal_of_cons hrest
      have hc0 : x >>> bs ||| (y <<< (32 - bs)) % CHUNKMOD
          = 2 ^ (32 - bs) * (y % 2 ^ bs) + x >>> bs := by
        have h32 : 32 - (32 - bs) = bs := by omega
        have hle : 32 - bs ≤ 32 := by omega
        have hxs : x >>> bs < 2 ^ (32 - bs) := by
          have := shiftRight_lt_chunk hx hle
          rwa [h32] at this
        rw [shiftLeft_mod_chunk y (32 - bs) hle, h32, Nat.lor_comm]
        exact lor_disjoint_eq_add (n := 32 - bs) (Nat.mul_mod_right _ _) hxs
      have hmod : chunksToNat (y :: rest2) % 2 ^ bs = y % 2 ^ bs := by
        show (y + CHUNKMOD * chunksToNat rest2) % 2 ^ bs = y % 2 ^ bs
        have hCfac : CHUNKMOD = 2 ^ bs * 2 ^ (32 - bs) := by
          rw [CHUNKMOD_eq, ← pow_add]
          congr 1
          omega
        calc (y + CHUNKMOD * chunksToNat rest2) % 2 ^ bs
            = (y + 2 ^ (32 - bs) * chunksToNat rest2 * 2 ^ bs) % 2 ^ bs := by
              rw [hCfac]; ring_nf
          _ = y % 2 ^ bs := Nat.add_mul_mod_self_right _ _ _
      calc chunksToNat (shrCombine bs 0 (x :: y :: rest2))
          = (x >>> bs ||| (y <<< (32 - bs)) % CHUNKMOD)
            + CHUNKMOD * chunksToNat (shrCombine bs 0 (y :: rest2)) := rfl
        _ = 2 ^ (32 - bs) * (y % 2 ^ bs) + x >>> bs
            + CHUNKMOD * (chunksToNat (y :: rest2) / 2 ^ bs) := by
            rw [hc0, ih hrest]
        _ = x >>> bs + 2 ^ (32 - bs) * (chunksToNat (y :: rest2) % 2 ^ bs)
            + CHUNKMOD * (chunksToNat (y :: rest2) / 2 ^ bs) := by
            rw [hmod]; ring
        _ = (x + CHUNKMOD * chunksToNat (y :: rest2)) / 2 ^ bs := by
            rw [chunk_shift_div x _ bs hx hbs]
        _ = chunksToNat (x :: y :: rest2) / 2 ^ bs := rfl

theorem chunksToNat_append_replicate_zero (l : List Nat) (m : Nat) :
    chunksToNat (l ++ List.replicate m 0) = chunksToNat l := by
  rw [chunksToNat_append, chunksToNat_replicate_zero]
  ring

/-- Value semantics of the generated constant wide unsigned right shift:
    the result is `value / 2 ^ s`. -/
theorem wideShiftRightConst_toNat (src : List Nat) (s : Nat)
    (hsrc : chunksNormal src) :
    chunksToNat (wideShiftRightConst src s false) = chunksToNat src / 2 ^ s := by
  unfold wideShiftRightConst
  dsimp only
  simp only [Bool.false_eq_true, if_false]
  by_cases hb : s % 32 = 0
  · rw [if_pos hb, chunksToNat_append_replicate_zero, chunksToNat_drop hsrc]
    rw [CHUNKMOD_pow, show 32 * (s / 32) = s by omega]
  · rw [if_neg hb, chunksToNat_append_replicate_zero]
    rw [shrCombine_toNat_zero (s % 32) hb (Nat.mod_lt _ (by norm_num)) _
      (chunksNormal_drop hsrc _)]
    rw [chunksToNat_drop hsrc, CHUNKMOD_pow, Nat.div_div_eq_div_mul, ← pow_add]
    rw [show 32 * (s / 32) + s % 32 = s by omega]

/-- C3 counterexample: for the 65-bit width (3 chunks, chunk-array width
    96 bits) take `a = 2 ^ 64` (chunks `[0, 0, 1]`) and `s = 1`.  The
    generated left-then-right shift returns `2 ^ 64` — the top storage
    bits beyond bit 64 are kept, because the shifts operate on all
    `32 * ceil(65/32) = 96` storage bits — while the claim demands
    `a & ((1 << (65 - 1)) - 1) = 0`. -/
theorem C3_counterexample :
    chunksToNat (wideShiftRightConst (wideShiftLeftConst [0, 0, 1] 1) 1 false) = 2 ^ 64 ∧
    chunksToNat [0, 0, 1] &&& (2 ^ (65 - 1) - 1) = 0 ∧
    (2 : Nat) ^ 64 ≠ 0 := by
  refine ⟨?_, by decide, by decide⟩
  decide

/-- C3 amended: for every wide chunk array `a` (chunk count
    `N = ceil(W/32)`, every chunk below `2 ^ 32`) and every shift amount
    `s ≤ 32 * N`, the generated wide left shift followed by the generated
    wide unsigned right shift yields `a & ((1 << (32 * N - s)) - 1)`:
    the top `s` bits are cleared at the storage width `32 * N`, not at the
    declared width `W` (the two agree exactly when `32 ∣ W`). -/
theorem C3_shift_roundtrip (src : List Nat) (s : Nat) (hsrc : chunksNormal src)
    (hs : s ≤ 32 * src.length) :
    chunksToNat (wideShiftRightConst (wideShiftLeftConst src s) s false)
      = chunksToNat src &&& (2 ^ (32 * src.length - s) - 1) := by
  have hnorm := wideShiftLeftConst_normal src s hsrc
  have hlen := wideShiftLeftConst_length src s
  rw [wideShiftRightConst_toNat _ s hnorm, wideShiftLeftConst_toNat src s hsrc]
  rw [Nat.and_pow_two_sub_one_eq_mod, CHUNKMOD_pow]
  have hsplit : 32 * src.length = 32 * src.length - s + s := by omega
  rw [hsplit, pow_add, Nat.mul_mod_mul_right]
  rw [Nat.mul_div_cancel _ (Nat.pos_pow_of_pos _ (by norm_num))]
  congr 2
  omega

/-- Witness for C3 at the 65-bit counterexample input, where the amended
    statement gives `2 ^ 64 & (2 ^ 95 - 1) = 2 ^ 64`. -/
theorem C3_shift_roundtrip_witness :
    chunksToNat (wideShiftRightConst (wideShiftLeftConst [0, 0, 1] 1) 1 false)
      = chunksToNat [0, 0, 1] &&& (2 ^ (32 * 3 - 1) - 1) :=
  C3_shift_roundtrip [0, 0, 1] 1 (by decide) (by decide)

/-! ### Wide addition and subtraction (`HDLModuleWASM.wideAdd` / `wideSub`) -/

/-- `HDLModuleWASM.wideAdd`: chunk-by-chunk addition with carry.  At each
    chunk the emitted statements run in this order:
    `sum = left + right` (i32 add, wraps), then `sum += carry`, store
    `sum`, then `carry = overflow1 | overflow2`.  The `overflow1`
    expression is built as `i32.lt_u(local.get $sum, local.get $left)`,
    but it sits inside the carry-update statement, which executes AFTER
    `sum += carry` — so at evaluation time `$sum` already holds the
    post-carry sum and the check the hardware runs is
    `(left + right + carry mod 2^32) < left`, not `(left + right) < left`.
    `overflow2 = (sum == 0) & carry` on the same post-carry sum.  (The
    source skips the carry update after the last chunk; the value
    computed there is dead, so the recursion computing it uniformly
    stores the same chunks.) -/
def wideAdd : List Nat → List Nat → Nat → List Nat
  | a0 :: arest, b0 :: brest, carry =>
    let sum1 := (a0 + b0) % CHUNKMOD
    let sum2 := (sum1 + carry) % CHUNKMOD
    let overflow1 := if sum2 < a0 then 1 else 0
    let overflow2 := if sum2 = 0 ∧ carry ≠ 0 then 1 else 0
    sum2 :: wideAdd arest brest (overflow1 ||| overflow2)
  | _, _, _ => []

/-- `HDLModuleWASM.wideSub`: chunk-by-chunk subtraction with borrow.  At
    each chunk: `diff = left - right` (i32 sub, wraps),
    `underflow1 = left < right` (unsigned), then `diff -= borrow`,
    `underflow2 = ((diff + borrow) == 0) & borrow`; the stored chunk is
    the final diff and the next borrow is `underflow1 | underflow2`. -/
def wideSub : List Nat → List Nat → Nat → List Nat
  | a0 :: arest, b0 :: brest, borrow =>
    let diff1 := (a0 + CHUNKMOD - b0) % CHUNKMOD
    let underflow1 := if a0 < b0 then 1 else 0
    let diff2 := (diff1 + CHUNKMOD - borrow) % CHUNKMOD
    let underflow2 := if (diff2 + borrow) % CHUNKMOD = 0 ∧ borrow ≠ 0 then 1 else 0
    diff2 :: wideSub arest brest (underflow1 ||| underflow2)
  | _, _, _ => []

theorem wideAdd_length {a b : List Nat} (hlen : a.length = b.length) (c : Nat) :
    (wideAdd a b c).length = a.length := by
  induction a generalizing b c with
  | nil => cases b with
    | nil => rfl
    | cons _ _ => simp at hlen
  | cons a0 arest ih =>
    cases b with
    | nil => simp at hlen
    | cons b0 brest =>
      simp only [wideAdd, List.length_cons]
      rw [ih (by simpa using hlen)]

theorem wideSub_length {a b : List Nat} (hlen : a.length = b.length) (c : Nat) :
    (wideSub a b c).length = a.length := by
  induction a generalizing b c with
  | nil => cases b with
    | nil => rfl
    | cons _ _ => simp at hlen
  | cons a0 arest ih =>
    cases b with
    | nil => simp at hlen
    | cons b0 brest =>
      simp only [wideSub, List.length_cons]
      rw [ih (by simpa using hlen)]

theorem wideAdd_normal (a b : List Nat) (c : Nat) :
    chunksNormal (wideAdd a b c) := by
  induction a generalizing b c with
  | nil => exact chunksNormal_nil
  | cons a0 arest ih =>
    cases b with
    | nil => exact chunksNormal_nil
    | cons b0 brest =>
      exact chunksNormal_cons (Nat.mod_lt _ (by norm_num [CHUNKMOD])) (ih _ _)

theorem wideSub_normal (a b : List Nat) (c : Nat) :
    chunksNormal (wideSub a b c) := by
  induction a generalizing b c with
  | nil => exact chunksNormal_nil
  | cons a0 arest ih =>
    cases b with
    | nil => exact chunksNormal_nil
    | cons b0 brest =>
      exact chunksNormal_cons (Nat.mod_lt _ (by norm_num [CHUNKMOD])) (ih _ _)

/-- One step of the wide-sub borrow chain: the two underflow flags are
    exclusive, their `or` is their sum, and the chunk equation
    `diff2 + b0 + c = a0 + CHUNKMOD * (underflow1 + underflow2)` holds. -/
theorem wideSubStep (a0 b0 c : Nat) (ha0 : a0 < CHUNKMOD) (hb0 : b0 < CHUNKMOD)
    (hc : c ≤ 1) :
    (if a0 < b0 then 1 else 0)
      ||| (if (((a0 + CHUNKMOD - b0) % CHUNKMOD + CHUNKMOD - c) % CHUNKMOD + c) % CHUNKMOD = 0
            ∧ c ≠ 0 then 1 else 0)
    = (if a0 < b0 then 1 else 0)
      + (if (((a0 + CHUNKMOD - b0) % CHUNKMOD + CHUNKMOD - c) % CHUNKMOD + c) % CHUNKMOD = 0
            ∧ c ≠ 0 then 1 else 0) ∧
    (if a0 < b0 then 1 else 0)
      + (if (((a0 + CHUNKMOD - b0) % CHUNKMOD + CHUNKMOD - c) % CHUNKMOD + c) % CHUNKMOD = 0
            ∧ c ≠ 0 then 1 else 0) ≤ 1 ∧
    ((a0 + CHUNKMOD - b0) % CHUNKMOD + CHUNKMOD - c) % CHUNKMOD + b0 + c
      = a0 + CHUNKMOD * ((if a0 < b0 then 1 else 0)
        + (if (((a0 + CHUNKMOD - b0) % CHUNKMOD + CHUNKMOD - c) % CHUNKMOD + c) % CHUNKMOD = 0
            ∧ c ≠ 0 then 1 else 0)) := by
  simp only [CHUNKMOD] at *
  by_cases h1 : a0 < b0 <;>
    by_cases h2 : (((a0 + 4294967296 - b0) % 4294967296 + 4294967296 - c) % 4294967296 + c)
        % 4294967296 = 0 ∧ c ≠ 0
  · exfalso
    omega
  · rw [if_pos h1, if_neg h2]
    exact ⟨by decide, by omega, by omega⟩
  · rw [if_neg h1, if_pos h2]
    exact ⟨by decide, by omega, by omega⟩
  · rw [if_neg h1, if_neg h2]
    exact ⟨by decide, by omega, by omega⟩

/-- Value semantics of the generated wide subtraction: the computed
    chunks hold `a - b - borrow`, wrapped at the full storage width. -/
theorem wideSub_toNat :
    ∀ (a b : List Nat) (c : Nat), a.length = b.length →
      chunksNormal a → chunksNormal b → c ≤ 1 →
      chunksToNat (wideSub a b c)
        = (chunksToNat a + CHUNKMOD ^ a.length - chunksToNat b - c)
            % CHUNKMOD ^ a.length := by
  intro a
  induction a with
  | nil =>
    intro b c hlen _ _ _
    cases b with
    | nil => simp [wideSub, chunksToNat, Nat.mod_one]
    | cons _ _ => simp at hlen
  | cons a0 arest ih =>
    intro b c hlen ha hb hc
    cases b with
    | nil => simp at hlen
    | cons b0 brest =>
      obtain ⟨ha0, harest⟩ := chunksNormal_of_cons ha
      obtain ⟨hb0, hbrest⟩ := chunksNormal_of_cons hb
      obtain ⟨hlor, hle, heq⟩ := wideSubStep a0 b0 c ha0 hb0 hc
      have hd2lt : ((a0 + CHUNKMOD - b0) % CHUNKMOD + CHUNKMOD - c) % CHUNKMOD < CHUNKMOD :=
        Nat.mod_lt _ (by norm_num [CHUNKMOD])
      have hBlt : chunksToNat brest < CHUNKMOD ^ arest.length := by
        have := chunksToNat_lt hbrest
        rwa [show brest.length = arest.length by simpa using hlen.symm] at this
      have hpow : CHUNKMOD ^ (arest.length + 1) = CHUNKMOD * CHUNKMOD ^ arest.length :=
        pow_succ' CHUNKMOD arest.length
      dsimp only [wideSub]
      rw [hlor]
      simp only [chunksToNat, List.length_cons]
      rw [ih brest _ (by simpa using hlen) harest hbrest hle]
      rw [← add_mul_mod_chunk _ _ arest.length hd2lt]
      congr 1
      simp only [CHUNKMOD] at *
      omega

/-- C8 counterexample: a 96-bit (3-chunk) add where chunk 1 of `b` is
    `0xFFFFFFFF` and chunk 0 overflows.  The correct sum of
    `a = [0xFFFFFFFF, 1, 0]` and `b = [1, 0xFFFFFFFF, 0]` is
    `[0, 1, 1]`, but the generated code computes `[0, 1, 0]`: at chunk 1
    the post-carry sum `1 + 0xFFFFFFFF + 1` wraps back to exactly
    `left = 1`, so `lt_u(sum, left)` and the `sum == 0` test are both
    false and the carry is lost.  Subtracting `b` back then yields
    `[0xFFFFFFFF, 1, 0xFFFFFFFF] ≠ a`, refuting `(a + b) - b == a`. -/
theorem C8_counterexample :
    wideAdd [4294967295, 1, 0] [1, 4294967295, 0] 0 = [0, 1, 0] ∧
    wideSub (wideAdd [4294967295, 1, 0] [1, 4294967295, 0] 0)
        [1, 4294967295, 0] 0
      = [4294967295, 1, 4294967295] ∧
    ([4294967295, 1, 4294967295] : List Nat) ≠ [4294967295, 1, 0] := by
  refine ⟨by decide, by decide, by decide⟩

/-- C8: the generated wide addition loses a carry whenever a `b`-chunk
    is all-ones (`0xFFFFFFFF`) with an incoming carry and the matching
    `a`-chunk is nonzero: the true column sum `a0 + 0xFFFFFFFF + 1`
    reaches `2^32` (first conjunct: the correct carry-out is 1), yet the
    generated code — whose `overflow1 = lt_u(sum, left)` is evaluated
    only after `sum += carry` has wrapped the sum back to exactly `a0` —
    stores `a0` and continues the chain with carry 0 (second conjunct).
    Consequently `(a + b) - b == a` fails on such inputs (see the
    counterexample), even though `wideSub` itself is exact. -/
theorem C8_wide_add_carry_loss (a0 : Nat) (arest brest : List Nat)
    (h0 : 0 < a0) (ha0 : a0 < CHUNKMOD) :
    CHUNKMOD ≤ a0 + (CHUNKMOD - 1) + 1 ∧
    wideAdd (a0 :: arest) ((CHUNKMOD - 1) :: brest) 1
      = a0 :: wideAdd arest brest 0 := by
  have h1 : (a0 + (CHUNKMOD - 1)) % CHUNKMOD = a0 - 1 := by
    simp only [CHUNKMOD] at *
    omega
  have h2 : (a0 - 1 + 1) % CHUNKMOD = a0 := by
    simp only [CHUNKMOD] at *
    omega
  refine ⟨by simp only [CHUNKMOD] at *; omega, ?_⟩
  dsimp only [wideAdd]
  rw [h1, h2, if_neg (lt_irrefl a0), if_neg (by omega)]
  norm_num

/-- Witness for C8's carry-loss theorem at `a0 = 5` with one further
    chunk on each side. -/
theorem C8_wide_add_carry_loss_witness :
    CHUNKMOD ≤ 5 + (CHUNKMOD - 1) + 1 ∧
    wideAdd (5 :: [0]) ((CHUNKMOD - 1) :: [0]) 1
      = 5 :: wideAdd [0] [0] 0 :=
  C8_wide_add_carry_loss 5 [0] [0] (by decide) (by decide)

/-! ### Wide comparisons (`HDLModuleWASM.wideLt` / `wideGt` / `wideLte` / `wideGte`) -/

/-- The value an `i32.lt_s` / `i32.gt_s` comparison sees in a stored
    32-bit chunk: its two's-complement reinterpretation. -/
def int32v (x : Nat) : Int := if x < 2 ^ 31 then (x : Int) else (x : Int) - CHUNKMOD

/-- `HDLModuleWASM.wideLt`: the nested-select chain built from LSB to
    MSB.  At chunk `i` the accumulated result becomes
    `select(lt_i, 1, select(gt_i, 0, result))`; the comparisons are
    unsigned except at the MSB chunk of a signed compare, which uses
    `lt_s`/`gt_s`.  `res` is the accumulator (initially 0: equal arrays
    are not less). -/
def wideLtChain (signed : Bool) : List Nat → List Nat → Nat → Nat
  | [a0], [b0], res =>
    if signed then
      if int32v a0 < int32v b0 then 1 else if int32v b0 < int32v a0 then 0 else res
    else
      if a0 < b0 then 1 else if b0 < a0 then 0 else res
  | a0 :: arest, b0 :: brest, res =>
    wideLtChain signed arest brest (if a0 < b0 then 1 else if b0 < a0 then 0 else res)
  | _, _, res => res

/-- `HDLModuleWASM.wideGt`: same chain with the roles of the two
    comparisons swapped: `select(gt_i, 1, select(lt_i, 0, result))`. -/
def wideGtChain (signed : Bool) : List Nat → List Nat → Nat → Nat
  | [a0], [b0], res =>
    if signed then
      if int32v b0 < int32v a0 then 1 else if int32v a0 < int32v b0 then 0 else res
    else
      if b0 < a0 then 1 else if a0 < b0 then 0 else res
  | a0 :: arest, b0 :: brest, res =>
    wideGtChain signed arest brest (if b0 < a0 then 1 else if a0 < b0 then 0 else res)
  | _, _, res => res

def wideLt (signed : Bool) (a b : List Nat) : Nat := wideLtChain signed a b 0

def wideGt (signed : Bool) (a b : List Nat) : Nat := wideGtChain signed a b 0

/-- `HDLModuleWASM.wideLte`: `a <= b` is `eqz (a > b)`. -/
def wideLte (signed : Bool) (a b : List Nat) : Nat :=
  if wideGt signed a b = 0 then 1 else 0

/-- `HDLModuleWASM.wideGte`: `a >= b` is `eqz (a < b)`. -/
def wideGte (signed : Bool) (a b : List Nat) : Nat :=
  if wideLt signed a b = 0 then 1 else 0

/-- The two's-complement reading of a whole chunk array at its storage
    width `32 * length`: the sign bit is bit 31 of the top chunk, exactly
    the bit the generated `lt_s` on the MSB chunk keys on. -/
def chunksToInt (l : List Nat) : Int :=
  if l.getLast?.getD 0 < 2 ^ 31 then (chunksToNat l : Int)
  else (chunksToNat l : Int) - CHUNKMOD ^ l.length

theorem chunksToNat_singleton (x : Nat) : chunksToNat [x] = x := by
  simp [chunksToNat]

theorem chunksToInt_singleton (x : Nat) : chunksToInt [x] = int32v x := by
  simp only [chunksToInt, int32v, List.getLast?_singleton, Option.getD_some,
    chunksToNat_singleton, List.length_singleton, pow_one]

theorem chunksToInt_cons (c : Nat) (l : List Nat) (hne : l ≠ []) :
    chunksToInt (c :: l) = c + CHUNKMOD * chunksToInt l := by
  have hlast : (c :: l).getLast?.getD 0 = l.getLast?.getD 0 := by
    cases l with
    | nil => exact absurd rfl hne
    | cons y ys => simp [List.getLast?_cons_cons]
  simp only [chunksToInt, hlast, chunksToNat, List.length_cons]
  by_cases h : l.getLast?.getD 0 < 2 ^ 31
  · simp only [h, if_pos]
    push_cast
    ring
  · simp only [h, if_neg, if_false]
    have : (CHUNKMOD : Int) ^ (l.length + 1) = CHUNKMOD * CHUNKMOD ^ l.length := by
      rw [pow_succ]
      ring
    rw [this]
    push_cast
    ring

theorem chunksToNat_cons (c : Nat) (l : List Nat) :
    chunksToNat (c :: l) = c + CHUNKMOD * chunksToNat l := rfl

/-- Folding one unsigned chunk comparison into the lexicographic value
    comparison. -/
theorem ltStep_nat (a0 b0 X Y res : Nat) (ha0 : a0 < CHUNKMOD) (hb0 : b0 < CHUNKMOD) :
    (if X < Y then 1 else if Y < X then 0 else
      if a0 < b0 then 1 else if b0 < a0 then 0 else res)
    = (if a0 + CHUNKMOD * X < b0 + CHUNKMOD * Y then 1 else
        if b0 + CHUNKMOD * Y < a0 + CHUNKMOD * X then 0 else res) := by
  simp only [CHUNKMOD] at *
  split_ifs <;> omega

/-- The same folding step over the signed (integer) interpretation. -/
theorem ltStep_int (a0 b0 : Nat) (X Y : Int) (res : Nat)
    (ha0 : a0 < CHUNKMOD) (hb0 : b0 < CHUNKMOD) :
    (if X < Y then 1 else if Y < X then 0 else
      if a0 < b0 then 1 else if b0 < a0 then 0 else res)
    = (if (a0 : Int) + CHUNKMOD * X < b0 + CHUNKMOD * Y then 1 else
        if (b0 : Int) + CHUNKMOD * Y < a0 + CHUNKMOD * X then 0 else res) := by
  simp only [CHUNKMOD] at *
  split_ifs <;> omega

/-- The generated unsigned wide less-than chain computes the comparison
    of the chunk-array values. -/
theorem wideLtChain_unsigned :
    ∀ (a b : List Nat) (res : Nat), a.length = b.length → a ≠ [] →
      chunksNormal a → chunksNormal b →
      wideLtChain false a b res
        = if chunksToNat a < chunksToNat b then 1
          else if chunksToNat b < chunksToNat a then 0 else res := by
  intro a
  induction a with
  | nil => intro b res _ hne _ _; exact absurd rfl hne
  | cons a0 arest ih =>
    intro b res hlen _ ha hb
    cases b with
    | nil => simp at hlen
    | cons b0 brest =>
      obtain ⟨ha0, harest⟩ := chunksNormal_of_cons ha
      obtain ⟨hb0, hbrest⟩ := chunksNormal_of_cons hb
      cases arest with
      | nil =>
        cases brest with
        | nil =>
          show (if a0 < b0 then 1 else if b0 < a0 then 0 else res) = _
          rw [chunksToNat_singleton, chunksToNat_singleton]
        | cons b1 bs => simp at hlen
      | cons a1 as =>
        cases brest with
        | nil => simp at hlen
        | cons b1 bs =>
          show wideLtChain false (a1 :: as) (b1 :: bs)
              (if a0 < b0 then 1 else if b0 < a0 then 0 else res) = _
          rw [ih (b1 :: bs) _ (by simpa using hlen) (by simp) harest hbrest]
          rw [chunksToNat_cons a0 (a1 :: as), chunksToNat_cons b0 (b1 :: bs)]
          exact ltStep_nat a0 b0 _ _ res ha0 hb0

/-- The generated signed wide less-than chain computes the comparison of
    the two's-complement values at the storage width. -/
theorem wideLtChain_signed :
    ∀ (a b : List Nat) (res : Nat), a.length = b.length → a ≠ [] →
      chunksNormal a → chunksNormal b →
      wideLtChain true a b res
        = if chunksToInt a < chunksToInt b then 1
          else if chunksToInt b < chunksToInt a then 0 else res := by
  intro a
  induction a with
  | nil => intro b res _ hne _ _; exact absurd rfl hne
  | cons a0 arest ih =>
    intro b res hlen _ ha hb
    cases b with
    | nil => simp at hlen
    | cons b0 brest =>
      obtain ⟨ha0, harest⟩ := chunksNormal_of_cons ha
      obtain ⟨hb0, hbrest⟩ := chunksNormal_of_cons hb
      cases arest with
      | nil =>
        cases brest with
        | nil =>
          show (if int32v a0 < int32v b0 then 1
              else if int32v b0 < int32v a0 then 0 else res) = _
          rw [chunksToInt_singleton, chunksToInt_singleton]
        | cons b1 bs => simp at hlen
      | cons a1 as =>
        cases brest with
        | nil => simp at hlen
        | cons b1 bs =>
          show wideLtChain true (a1 :: as) (b1 :: bs)
              (if a0 < b0 then 1 else if b0 < a0 then 0 else res) = _
          rw [ih (b1 :: bs) _ (by simpa using hlen) (by simp) harest hbrest]
          rw [chunksToInt_cons a0 (a1 :: as) (by simp),
            chunksToInt_cons b0 (b1 :: bs) (by simp)]
          exact ltStep_int a0 b0 _ _ res ha0 hb0

/-- `wideGt` is `wideLt` with the operands swapped, chunk for chunk. -/
theorem wideGtChain_swap (signed : Bool) :
    ∀ (a b : List Nat) (res : Nat),
      wideGtChain signed a b res = wideLtChain signed b a res := by
  intro a
  induction a with
  | nil =>
    intro b res
    cases b with
    | nil => rfl
    | cons b0 brest => simp [wideGtChain, wideLtChain]
  | cons a0 arest ih =>
    intro b res
    cases b with
    | nil => simp [wideGtChain, wideLtChain]
    | cons b0 brest =>
      cases arest with
      | nil =>
        cases brest with
        | nil => rfl
        | cons b1 bs =>
          show wideGtChain signed [] (b1 :: bs)
              (if b0 < a0 then 1 else if a0 < b0 then 0 else res) = _
          simp [wideGtChain, wideLtChain]
      | cons a1 as =>
        cases brest with
        | nil =>
          show wideGtChain signed (a1 :: as) []
              (if b0 < a0 then 1 else if a0 < b0 then 0 else res) = _
          simp [wideGtChain, wideLtChain]
        | cons b1 bs =>
          show wideGtChain signed (a1 :: as) (b1 :: bs)
              (if b0 < a0 then 1 else if a0 < b0 then 0 else res) = _
          exact ih (b1 :: bs) _

/-- C4 counterexample: at width 65 (3 chunks), `a = 2 ^ 64` has its 65-bit
    top bit set (value `2 ^ 64 - 2 ^ 65 < 0` in 65-bit two's complement)
    and `b = 0` does not, yet the generated signed wide less-than chain
    reports `a < b` as false (0): the sign it keys on is bit 31 of the top
    chunk, i.e. bit 95, which `a` has clear. -/
theorem C4_counterexample :
    wideLt true [0, 0, 1] [0, 0, 0] = 0 ∧
    chunksToNat [0, 0, 1] = 2 ^ 64 ∧
    ((2 : Int) ^ 64 - 2 ^ 65 < 0) := by
  refine ⟨by decide, by decide, by decide⟩

/-- C4 amended: for every pair of equal-length nonempty wide chunk arrays
    (chunks below `2 ^ 32`), the generated unsigned wide `lt`/`gt`/`lte`/
    `gte` agree with the big-integer comparison of the stored values, and
    the signed variants agree with the two's-complement comparison at the
    storage width `32 * N` — whose sign bit is bit `32 * N - 1`, not bit
    `W - 1`; the claim's W-bit reading holds exactly when `32 ∣ W`. -/
theorem C4_wide_compare (a b : List Nat) (hlen : a.length = b.length)
    (hne : a ≠ []) (ha : chunksNormal a) (hb : chunksNormal b) :
    (wideLt false a b = if chunksToNat a < chunksToNat b then 1 else 0) ∧
    (wideGt false a b = if chunksToNat b < chunksToNat a then 1 else 0) ∧
    (wideLte false a b = if chunksToNat a ≤ chunksToNat b then 1 else 0) ∧
    (wideGte false a b = if chunksToNat b ≤ chunksToNat a then 1 else 0) ∧
    (wideLt true a b = if chunksToInt a < chunksToInt b then 1 else 0) ∧
    (wideGt true a b = if chunksToInt b < chunksToInt a then 1 else 0) ∧
    (wideLte true a b = if chunksToInt a ≤ chunksToInt b then 1 else 0) ∧
    (wideGte true a b = if chunksToInt b ≤ chunksToInt a then 1 else 0) := by
  have hne2 : b ≠ [] := by
    cases b with
    | nil => cases a with
      | nil => exact absurd rfl hne
      | cons _ _ => simp at hlen
    | cons _ _ => simp
  have hltu : wideLt false a b
      = if chunksToNat a < chunksToNat b then 1
        else if chunksToNat b < chunksToNat a then 0 else 0 :=
    wideLtChain_unsigned a b 0 hlen hne ha hb
  have hgtu : wideGt false a b
      = if chunksToNat b < chunksToNat a then 1
        else if chunksToNat a < chunksToNat b then 0 else 0 := by
    rw [wideGt, wideGtChain_swap false a b 0]
    exact wideLtChain_unsigned b a 0 hlen.symm hne2 hb ha
  have hlts : wideLt true a b
      = if chunksToInt a < chunksToInt b then 1
        else if chunksToInt b < chunksToInt a then 0 else 0 :=
    wideLtChain_signed a b 0 hlen hne ha hb
  have hgts : wideGt true a b
      = if chunksToInt b < chunksToInt a then 1
        else if chunksToInt a < chunksToInt b then 0 else 0 := by
    rw [wideGt, wideGtChain_swap true a b 0]
    exact wideLtChain_signed b a 0 hlen.symm hne2 hb ha
  have hltu2 : wideLt false a b
      = if chunksToNat a < chunksToNat b then 1 else 0 := by
    rw [hltu]; split_ifs <;> omega
  have hgtu2 : wideGt false a b
      = if chunksToNat b < chunksToNat a then 1 else 0 := by
    rw [hgtu]; split_ifs <;> omega
  have hlts2 : wideLt true a b
      = if chunksToInt a < chunksToInt b then 1 else 0 := by
    rw [hlts]; split_ifs <;> omega
  have hgts2 : wideGt true a b
      = if chunksToInt b < chunksToInt a then 1 else 0 := by
    rw [hgts]; split_ifs <;> omega
  refine ⟨hltu2, hgtu2, ?_, ?_, hlts2, hgts2, ?_, ?_⟩
  · rw [wideLte, hgtu2]; split_ifs <;> first | omega | contradiction
  · rw [wideGte, hltu2]; split_ifs <;> first | omega | contradiction
  · rw [wideLte, hgts2]; split_ifs <;> first | omega | contradiction
  · rw [wideGte, hlts2]; split_ifs <;> first | omega | contradiction

/-- Witness for C4 on concrete 3-chunk (96-bit) operands. -/
theorem C4_wide_compare_witness :
    (wideLt false [5, 0, 1] [4, 0, 1]
      = if chunksToNat [5, 0, 1] < chunksToNat [4, 0, 1] then 1 else 0) ∧
    (wideLt true [0, 0, 2147483648] [1, 0, 0]
      = if chunksToInt [0, 0, 2147483648] < chunksToInt [1, 0, 0] then 1 else 0) :=
  ⟨(C4_wide_compare [5, 0, 1] [4, 0, 1] (by decide) (by decide)
      (by decide) (by decide)).1,
   (C4_wide_compare [0, 0, 2147483648] [1, 0, 0] (by decide) (by decide)
      (by decide) (by decide)).2.2.2.2.1⟩

/-! ### Host state proxy (`HDLModuleWASM.defineProperty`) -/

/-- The precomputed narrow-write mask of `defineProperty`: the source sets
    `mask = -1` (all bits) and overrides it with `(1 << (left+1)) - 1`
    when `left < 31`.  On the 8/16/32-bit typed-array stores the all-bits
    mask acts as `2 ^ 32 - 1` for a nonnegative value. -/
def proxyMask (left : Nat) : Nat :=
  if left < 31 then 2 ^ (left + 1) - 1 else 2 ^ 32 - 1

/-- The bytes a proxy write leaves in the variable's storage: a scalar
    cell for sizes 1/2/4 or the chunk array of a wide (> 64 bit) value. -/
inductive ProxyStore where
  | scalar (v : Nat)
  | wide (chunks : List Nat)
deriving DecidableEq, Repr

/-- The chunk array stored for a wide proxy write: the value is masked to
    the declared width (`bigMask`) and split into `numChunks` little-endian
    32-bit chunks. -/
def wideStoreChunks (left value : Nat) : List Nat :=
  let bigValue := value &&& (2 ^ (left + 1) - 1)
  (List.range ((left + 1 + 31) / 32)).map (fun i => bigValue >>> (32 * i) % CHUNKMOD)

/-- The `set` half of `HDLModuleWASM.defineProperty` for a non-array logic
    variable: sizes 1, 2 and 4 store `value & mask` into the 8/16/32-bit
    view; a wide type stores the masked chunks; any other size (exactly
    the 8-byte variables) falls through to
    `throw can't set property`, modelled as `none`. -/
def proxySet (left : Nat) (value : Nat) : Option ProxyStore :=
  let size := getDataTypeSize (.logic left 0 false)
  if size = 1 then some (.scalar ((value &&& proxyMask left) % 2 ^ 8))
  else if size = 2 then some (.scalar ((value &&& proxyMask left) % 2 ^ 16))
  else if size = 4 then some (.scalar ((value &&& proxyMask left) % 2 ^ 32))
  else if 63 < left then some (.wide (wideStoreChunks left value))
  else none

/-- The `get` half of `HDLModuleWASM.defineProperty` for a non-array logic
    variable: sizes 1, 2 and 4 read the scalar cell; a wide type combines
    the chunks into a big integer and masks it to the declared width; the
    remaining sizes (the 8-byte variables) return a raw two-word typed
    view rather than a number, modelled as `none`. -/
def proxyGet (left : Nat) (st : ProxyStore) : Option Nat :=
  let size := getDataTypeSize (.logic left 0 false)
  let scalarOf : ProxyStore → Option Nat := fun s =>
    match s with
    | .scalar v => some v
    | .wide _ => none
  if size = 1 then scalarOf st
  else if size = 2 then scalarOf st
  else if size = 4 then scalarOf st
  else if 63 < left then
    match st with
    | .wide chunks => some (chunksToNat chunks &&& (2 ^ (left + 1) - 1))
    | .scalar _ => none
  else none

/-- C7 counterexample: writing the 33-bit variable (`left = 32`, storage
    size 8 bytes) through the proxy does not store the value — it throws
    (`none`), contradicting the claim that the write does not fail. -/
theorem C7_counterexample : proxySet 32 5 = none := by decide

/-- C7 amended: for every variable whose storage size is exactly 8 bytes
    (widths 33 through 64), writing any value through the host state proxy
    fails with the `can't set property` error; only sizes 1, 2, 4 and wide
    (> 8 byte) variables are writable.  (Reads of such variables return a
    raw two-word u32 view instead of a number.) -/
theorem C7_size8_write_fails (left v : Nat) (h32 : 32 ≤ left) (h63 : left ≤ 63) :
    proxySet left v = none := by
  have hsz : getDataTypeSize (.logic left 0 false) = 8 := by
    simp only [getDataTypeSize]
    have h7 : ¬ left ≤ 7 := by omega
    have h15 : ¬ left ≤ 15 := by omega
    have h31 : ¬ left ≤ 31 := by omega
    have hle : left ≤ 63 := h63
    simp [h7, h15, h31, hle]
  simp only [proxySet, hsz]
  have hw : ¬ 63 < left := by omega
  simp [hw]

/-- Witness for C7 at the 41-bit variable. -/
theorem C7_size8_write_fails_witness : proxySet 40 7 = none :=
  C7_size8_write_fails 40 7 (by decide) (by decide)

/-- C9: for every non-array variable of declared width `W = left + 1 < 32`
    and every value `v`, writing `v` through the state proxy and reading
    back returns `v & ((1 << W) - 1)`. -/
theorem C9_narrow_mask_roundtrip (left v : Nat) (h : left ≤ 30) :
    (proxySet left v).bind (proxyGet left)
      = some (v &&& (2 ^ (left + 1) - 1)) := by
  have hmask : proxyMask left = 2 ^ (left + 1) - 1 := by
    simp only [proxyMask]
    rw [if_pos (by omega)]
  have hmlt : v % 2 ^ (left + 1) < 2 ^ (left + 1) :=
    Nat.mod_lt _ (Nat.pos_pow_of_pos _ (by norm_num))
  rcases (by omega : left ≤ 7 ∨ (8 ≤ left ∧ left ≤ 15) ∨ (16 ≤ left ∧ left ≤ 30))
    with h7 | h15 | h30
  · have hsz : getDataTypeSize (.logic left 0 false) = 1 := by
      simp [getDataTypeSize, h7]
    have hple : (2 : Nat) ^ (left + 1) ≤ 2 ^ 8 :=
      Nat.pow_le_pow_right (by norm_num) (by omega)
    simp [proxySet, proxyGet, hsz, hmask, Nat.and_pow_two_sub_one_eq_mod]
    omega
  · have hsz : getDataTypeSize (.logic left 0 false) = 2 := by
      have h7 : ¬ left ≤ 7 := by omega
      simp [getDataTypeSize, h7]
      omega
    have hple : (2 : Nat) ^ (left + 1) ≤ 2 ^ 16 :=
      Nat.pow_le_pow_right (by norm_num) (by omega)
    simp [proxySet, proxyGet, hsz, hmask, Nat.and_pow_two_sub_one_eq_mod]
    omega
  · have hsz : getDataTypeSize (.logic left 0 false) = 4 := by
      have h7 : ¬ left ≤ 7 := by omega
      have h15 : ¬ left ≤ 15 := by omega
      simp [getDataTypeSize, h7, h15]
      omega
    have hple : (2 : Nat) ^ (left + 1) ≤ 2 ^ 32 :=
      Nat.pow_le_pow_right (by norm_num) (by omega)
    simp [proxySet, proxyGet, hsz, hmask, Nat.and_pow_two_sub_one_eq_mod]
    omega

/-- Witness for C9: a 5-bit variable (`left = 4`) masks `255` to `31`. -/
theorem C9_narrow_mask_roundtrip_witness :
    (proxySet 4 255).bind (proxyGet 4) = some (255 &&& (2 ^ (4 + 1) - 1)) :=
  C9_narrow_mask_roundtrip 4 255 (by decide)

/-! ### State layout ordering (`HDLModuleWASM.genTypes`) -/

/-- `HDLVariableDef` (hdltypes): the fields `genTypes` consults.
    `constValue` is `none` when the variable has no constant value. -/
structure HDLVariableDef where
  name : String
  dtype : HDLDataType
  isInput : Bool
  isOutput : Bool
  isParam : Bool
  constValue : Option Nat
deriving DecidableEq, Repr

/-- `getVarDefSortKey` (genTypes): the byte size, plus 1000000 for
    non-outputs so that outputs sort first; `vardefs.sort` uses the
    numeric comparator `keyA - keyB`, i.e. ascending key order. -/
def getVarDefSortKey (vdef : HDLVariableDef) : Nat :=
  let val := getDataTypeSize vdef.dtype
  if vdef.isOutput then val else val + 1000000

/-- The order in which `HDLModuleWASM.genTypes` emplaces variables into
    the state struct: non-constants are sorted by `getVarDefSortKey`
    (a stable ascending sort, as JS `Array.prototype.sort`), then the
    output-flagged ones are emplaced first, then the rest; when a
    constant pool is present, the module's constants and then the pool
    follow.  (Byte offsets and alignment padding are not modelled; the
    claim concerns only the emplacement order.) -/
def genTypesOrder (vardefs : List HDLVariableDef)
    (constpool : Option (List HDLVariableDef)) : List HDLVariableDef :=
  let vars := vardefs.filter (fun vd => vd.constValue.isNone)
  let constdefs := vardefs.filter (fun vd => vd.constValue.isSome)
  let sorted := vars.mergeSort (fun a b => getVarDefSortKey a ≤ getVarDefSortKey b)
  let outputs := sorted.filter (fun vd => vd.isOutput)
  let internals := sorted.filter (fun vd => ¬ vd.isOutput)
  match constpool with
  | some pool => outputs ++ internals ++ (constdefs ++ pool)
  | none => outputs ++ internals

/-- C6 counterexample: a module with two output variables of sizes 1 and
    4 bytes is laid out size-ascending (`a` before `b`), so the output
    group is not ordered by byte size descending as the claim states. -/
theorem C6_counterexample :
    (genTypesOrder
        [⟨"a", .logic 0 0 false, false, true, false, none⟩,
         ⟨"b", .logic 31 0 false, false, true, false, none⟩] none).map
      HDLVariableDef.name = ["a", "b"] ∧
    ¬ List.Pairwise
        (fun x y => getDataTypeSize y.dtype ≤ getDataTypeSize x.dtype)
        (genTypesOrder
          [⟨"a", .logic 0 0 false, false, true, false, none⟩,
           ⟨"b", .logic 31 0 false, false, true, false, none⟩] none) := by
  have hcomp :
      genTypesOrder
        [⟨"a", .logic 0 0 false, false, true, false, none⟩,
         ⟨"b", .logic 31 0 false, false, true, false, none⟩] none
      = [⟨"a", .logic 0 0 false, false, true, false, none⟩,
         ⟨"b", .logic 31 0 false, false, true, false, none⟩] := by
    simp [genTypesOrder, List.mergeSort, getVarDefSortKey, getDataTypeSize]
  rw [hcomp]
  constructor
  · rfl
  · intro hp
    have := List.rel_of_pairwise_cons hp (List.mem_singleton.mpr rfl)
    simp [getDataTypeSize] at this

/-- C6 amended: for every module, the state layout emplaces the
    non-constant variables as an output block followed by a non-output
    block, each ordered by byte size ascending (not descending); the
    module's constants and the constant pool follow only after all
    non-constants (and only when a constant pool is supplied). -/
theorem C6_layout_order (vardefs : List HDLVariableDef)
    (cp : Option (List HDLVariableDef)) :
    ∃ outs ins,
      genTypesOrder vardefs cp
        = outs ++ ins ++ (match cp with
            | some pool => vardefs.filter (fun vd => vd.constValue.isSome) ++ pool
            | none => []) ∧
      (∀ vd ∈ outs, vd.isOutput = true ∧ vd.constValue = none) ∧
      (∀ vd ∈ ins, vd.isOutput = false ∧ vd.constValue = none) ∧
      List.Pairwise
        (fun x y => getDataTypeSize x.dtype ≤ getDataTypeSize y.dtype) outs ∧
      List.Pairwise
        (fun x y => getDataTypeSize x.dtype ≤ getDataTypeSize y.dtype) ins := by
  classical
  have hsortdd : List.Pairwise
      (fun a b => (getVarDefSortKey a ≤ getVarDefSortKey b : Bool) = true)
      ((vardefs.filter (fun vd => vd.constValue.isNone)).mergeSort
        (fun a b => getVarDefSortKey a ≤ getVarDefSortKey b)) := by
    apply List.sorted_mergeSort
    · intro a b c hab hbc
      simp only [decide_eq_true_eq] at *
      omega
    · intro a b
      simp only [Bool.or_eq_true, decide_eq_true_eq]
      omega
  have hmem : ∀ vd ∈ (vardefs.filter (fun vd => vd.constValue.isNone)).mergeSort
      (fun a b => getVarDefSortKey a ≤ getVarDefSortKey b),
      vd.constValue = none := by
    intro vd hvd
    have hv : vd ∈ vardefs.filter (fun vd => vd.constValue.isNone) :=
      ((List.mergeSort_perm _ _).mem_iff).mp hvd
    have := List.of_mem_filter hv
    simpa [Option.isNone_iff_eq_none] using this
  refine ⟨((vardefs.filter (fun vd => vd.constValue.isNone)).mergeSort
      (fun a b => getVarDefSortKey a ≤ getVarDefSortKey b)).filter
      (fun vd => vd.isOutput),
    ((vardefs.filter (fun vd => vd.constValue.isNone)).mergeSort
      (fun a b => getVarDefSortKey a ≤ getVarDefSortKey b)).filter
      (fun vd => ¬ vd.isOutput), ?_, ?_, ?_, ?_, ?_⟩
  · cases cp with
    | none =>
      simp only [genTypesOrder]
      rw [List.append_nil]
    | some pool => rfl
  · intro vd hvd
    refine ⟨?_, hmem vd (List.mem_of_mem_filter hvd)⟩
    have := List.of_mem_filter hvd
    simpa using this
  · intro vd hvd
    refine ⟨?_, hmem vd (List.mem_of_mem_filter hvd)⟩
    have := List.of_mem_filter hvd
    simpa using this
  · have hp := List.Pairwise.filter (fun vd => vd.isOutput) hsortdd
    apply hp.imp_of_mem
    intro a b ha hb hab
    have hao : a.isOutput = true := by simpa using List.of_mem_filter ha
    have hbo : b.isOutput = true := by simpa using List.of_mem_filter hb
    simp only [decide_eq_true_eq, getVarDefSortKey, hao, hbo, if_true] at hab
    omega
  · have hp := List.Pairwise.filter (fun vd => decide (¬ vd.isOutput)) hsortdd
    apply hp.imp_of_mem
    intro a b ha hb hab
    have hao : a.isOutput = false := by
      have := List.of_mem_filter ha
      simpa using this
    have hbo : b.isOutput = false := by
      have := List.of_mem_filter hb
      simpa using this
    simp only [decide_eq_true_eq, getVarDefSortKey, hao, hbo,
      Bool.false_eq_true, if_false] at hab
    omega

/-! ### Runtime driver: `saveState` / `loadState` -/

/-- `HDLModuleWASM.saveState`: a copy of the first `statebytes` bytes of
    the linear memory. -/
def saveState (mem : List Nat) (statebytes : Nat) : List Nat :=
  mem.take statebytes

/-- `HDLModuleWASM.loadState`: `this.data8.set(state.o)` — the blob is
    copied to the start of the linear memory with no size validation; a
    typed-array `set` throws a RangeError only when the source is longer
    than the whole memory (`none`). -/
def loadState (mem : List Nat) (blob : List Nat) : Option (List Nat) :=
  if blob.length ≤ mem.length then some (blob ++ mem.drop blob.length)
  else none

/-- C1 counterexample: with `statebytes = 8` and a 16-byte memory, loading
    a 4-byte blob (length ≠ statebytes) succeeds — no `StateSizeMismatch`
    is raised — and the saved state is changed. -/
theorem C1_counterexample :
    (4 : Nat) ≠ 8 ∧
    loadState [1, 1, 1, 1, 1, 1, 1, 1, 1, 1, 1, 1, 1, 1, 1, 1] [9, 9, 9, 9]
      = some [9, 9, 9, 9, 1, 1, 1, 1, 1, 1, 1, 1, 1, 1, 1, 1] ∧
    saveState [9, 9, 9, 9, 1, 1, 1, 1, 1, 1, 1, 1, 1, 1, 1, 1] 8
      ≠ saveState [1, 1, 1, 1, 1, 1, 1, 1, 1, 1, 1, 1, 1, 1, 1, 1] 8 := by
  refine ⟨by decide, by decide, by decide⟩

/-- C1 amended: `loadState` performs no length validation at all.  Any
    blob no longer than the whole linear memory is accepted — shorter or
    longer than `statebytes` alike — overwriting the first `blob.length`
    bytes and leaving the rest of memory unchanged; the call fails (with
    a RangeError, not `StateSizeMismatch`) only when the blob exceeds the
    entire memory. -/
theorem C1_loadState_no_size_check (mem blob : List Nat) :
    (blob.length ≤ mem.length →
      ∃ newMem, loadState mem blob = some newMem ∧
        newMem.length = mem.length ∧
        (∀ i, i < blob.length → newMem[i]? = blob[i]?) ∧
        (∀ i, blob.length ≤ i → newMem[i]? = mem[i]?)) ∧
    (mem.length < blob.length → loadState mem blob = none) := by
  constructor
  · intro hle
    refine ⟨blob ++ mem.drop blob.length, ?_, ?_, ?_, ?_⟩
    · rw [loadState, if_pos hle]
    · rw [List.length_append, List.length_drop]
      omega
    · intro i hi
      rw [List.getElem?_append, if_pos hi]
    · intro i hi
      rw [List.getElem?_append_right hi, List.getElem?_drop]
      congr 1
      omega
  · intro hgt
    rw [loadState, if_neg (by omega)]

/-- Witness for C1 applying the no-check branch to a short blob. -/
theorem C1_loadState_no_size_check_witness :
    ∃ newMem, loadState [0, 0, 0, 0] [5, 5] = some newMem ∧
      newMem.length = ([0, 0, 0, 0] : List Nat).length ∧
      (∀ i, i < ([5, 5] : List Nat).length → newMem[i]? = [5, 5][i]?) ∧
      (∀ i, ([5, 5] : List Nat).length ≤ i → newMem[i]? = [0, 0, 0, 0][i]?) :=
  (C1_loadState_no_size_check [0, 0, 0, 0] [5, 5]).1 (by decide)

/-! ### Runtime `$readmem` filename resolution -/

/-- The `$readmem` filename scan: up to 255 bytes starting at `p`, the
    loop breaks at the first NUL and PREPENDS each character
    (`fn = String.fromCharCode(charCode) + fn`).  `acc` is the string
    built so far, `i` the loop index. -/
def readmemFnAux (mem : Nat → Nat) (p : Nat) : Nat → Nat → List Nat → List Nat
  | 0, _, acc => acc
  | fuel + 1, i, acc =>
    if mem (p + i) = 0 then acc
    else readmemFnAux mem p fuel (i + 1) (mem (p + i) :: acc)

/-- The filename string `$readmem` resolves, as a list of character
    codes. -/
def readmemFilename (mem : Nat → Nat) (p : Nat) : List Nat :=
  readmemFnAux mem p 255 0 []

/-- Reference reading of the same bytes in MEMORY ORDER: forward from
    `p`, up to the first NUL, at most `fuel` characters. -/
def memBytesForward (mem : Nat → Nat) (p : Nat) : Nat → Nat → List Nat
  | 0, _ => []
  | fuel + 1, i =>
    if mem (p + i) = 0 then []
    else mem (p + i) :: memBytesForward mem p fuel (i + 1)

/-- The `$readmem` body after parsing: resolve the filename, consult the
    host lookup (`getFileData` plus line parsing, abstracted as a
    callback from filename to byte list); a missing file throws
    (`none`) before any write, otherwise `data[i]` is stored at
    `p_rom + i` (byte-masked by the `Uint8Array` store). -/
def readmemRun (lookup : List Nat → Option (List Nat)) (mem : Nat → Nat)
    (p_filename p_rom : Nat) : Option (Nat → Nat) :=
  match lookup (readmemFilename mem p_filename) with
  | none => none
  | some data => some (fun addr =>
      if p_rom ≤ addr ∧ addr - p_rom < data.length then
        data.getD (addr - p_rom) 0 % 256
      else mem addr)

/-- Auxiliary: the prepend-scan equals the reverse of the forward scan. -/
theorem readmemFnAux_eq_reverse (mem : Nat → Nat) (p : Nat) :
    ∀ fuel i acc, readmemFnAux mem p fuel i acc
      = (memBytesForward mem p fuel i).reverse ++ acc := by
  intro fuel
  induction fuel with
  | zero => intro i acc; rfl
  | succ n ih =>
    intro i acc
    rw [readmemFnAux, memBytesForward]
    by_cases h : mem (p + i) = 0
    · rw [if_pos h, if_pos h]
      rfl
    · rw [if_neg h, if_neg h, ih, List.reverse_cons, List.append_assoc]
      rfl

/-- C5 counterexample: memory holding the two-character NUL-terminated
    string "ab" (bytes 97, 98, 0) resolves to the filename "ba"
    ([98, 97]), not "ab" ([97, 98]) — the characters are assembled in
    REVERSE memory order. -/
theorem C5_counterexample :
    readmemFilename (fun i => if i = 0 then 97 else if i = 1 then 98 else 0) 0
      = [98, 97] ∧ ([98, 97] : List Nat) ≠ [97, 98] := by
  exact ⟨rfl, by decide⟩

/-- C5 amended: `$readmem` resolves the REVERSE of the NUL-terminated
    string stored in memory (each character is prepended to the name),
    scanning at most 255 bytes; and when the host lookup returns no data
    for that reversed name, the call raises the missing-file error
    without performing any write to the destination memory. -/
theorem C5_readmem_filename (lookup : List Nat → Option (List Nat))
    (mem : Nat → Nat) (p_filename p_rom : Nat) :
    readmemFilename mem p_filename
      = (memBytesForward mem p_filename 255 0).reverse ∧
    (lookup ((memBytesForward mem p_filename 255 0).reverse) = none →
      readmemRun lookup mem p_filename p_rom = none) := by
  have hrev : readmemFilename mem p_filename
      = (memBytesForward mem p_filename 255 0).reverse := by
    rw [readmemFilename, readmemFnAux_eq_reverse, List.append_nil]
  refine ⟨hrev, ?_⟩
  intro hnone
  rw [readmemRun, hrev, hnone]

/-- Witness for C5: a host lookup with no files makes `$readmem` fail
    with no resulting memory. -/
theorem C5_readmem_filename_witness :
    readmemRun (fun _ => none) (fun _ => 0) 0 0 = none :=
  (C5_readmem_filename (fun _ => none) (fun _ => 0) 0 0).2 rfl

/-! ### Generated `tick2` loop -/

/-- One pass of the generated `tick2` loop body when a `clk` variable
    exists: `clk = 0; eval; clk = 1; eval; copyTraceRec`, over an
    abstract machine state `σ` with abstract `setClk`, `eval` and
    `copyTraceRec` effects. -/
def tick2Body {σ : Type} (setClk : Nat → σ → σ) (evalFn : σ → σ)
    (copyTraceRec : σ → σ) (s : σ) : σ :=
  copyTraceRec (evalFn (setClk 1 (evalFn (setClk 0 s))))

/-- Continuation of the `tick2` do-while loop from a current counter
    value `c`: run the body, then branch back while the decremented
    counter is nonzero.  `c` here is the number of body executions still
    to perform (the counter is ≥ 1 whenever the loop is re-entered, so
    later decrements never wrap). -/
def tick2LoopAux {σ : Type} (body : σ → σ) : Nat → σ → σ
  | 0, s => s
  | c + 1, s => if c = 0 then body s else tick2LoopAux body c (body s)

/-- The generated `tick2(iters)`: the argument is an i32 (value mod
    2^32); the loop body runs once unconditionally, then
    `br_if (tee counter = i32.sub(counter, 1))` decrements with i32
    wrap-around and loops back while nonzero. -/
def tick2Run {σ : Type} (body : σ → σ) (iters : Nat) (s : σ) : σ :=
  let c1 := (iters % 2 ^ 32 + 2 ^ 32 - 1) % 2 ^ 32
  if c1 = 0 then body s else tick2LoopAux body c1 (body s)

/-- The do-while continuation performs exactly `c` body executions. -/
theorem tick2LoopAux_eq_iterate {σ : Type} (body : σ → σ) :
    ∀ c s, tick2LoopAux body c s = body^[c] s := by
  intro c
  induction c with
  | zero => intro s; rfl
  | succ n ih =>
    intro s
    rw [tick2LoopAux]
    by_cases h : n = 0
    · rw [if_pos h, h]
      rfl
    · rw [if_neg h, ih, Function.iterate_succ_apply]

/-- C10: because the generated `tick2` tests its counter only AFTER the
    body (do-while), for `1 ≤ iters < 2^32` it performs exactly `iters`
    iterations of `(clk=0; eval; clk=1; eval; copyTraceRec)`, while
    `iters = 0` still executes the body once and — the i32 decrement
    wrapping to 2^32 − 1 — runs it 2^32 times in total. -/
theorem C10_tick2_iterations {σ : Type} (setClk : Nat → σ → σ)
    (evalFn copyTraceRec : σ → σ) (s : σ) (iters : Nat) :
    (1 ≤ iters → iters < 2 ^ 32 →
      tick2Run (tick2Body setClk evalFn copyTraceRec) iters s
        = (tick2Body setClk evalFn copyTraceRec)^[iters] s) ∧
    (tick2Run (tick2Body setClk evalFn copyTraceRec) 0 s
      = (tick2Body setClk evalFn copyTraceRec)^[2 ^ 32] s) := by
  constructor
  · intro h1 hlt
    rw [tick2Run]
    have hc1 : (iters % 2 ^ 32 + 2 ^ 32 - 1) % 2 ^ 32 = iters - 1 := by
      have : iters % 2 ^ 32 = iters := Nat.mod_eq_of_lt hlt
      omega
    rw [hc1]
    by_cases h : iters - 1 = 0
    · rw [if_pos h]
      have : iters = 1 := by omega
      rw [this]
      rfl
    · rw [if_neg h, tick2LoopAux_eq_iterate, ← Function.iterate_succ_apply]
      have h2 : (iters - 1).succ = iters := by omega
      rw [h2]
  · rw [tick2Run]
    have hc1 : ((0 : Nat) % 2 ^ 32 + 2 ^ 32 - 1) % 2 ^ 32 = 2 ^ 32 - 1 := by
      norm_num
    have h2 : ((2 : Nat) ^ 32 - 1).succ = 2 ^ 32 := by norm_num
    rw [hc1, if_neg (by norm_num), tick2LoopAux_eq_iterate,
      ← Function.iterate_succ_apply, h2]

/-- Witness for C10 at a concrete state type and body. -/
theorem C10_tick2_iterations_witness :
    tick2Run (tick2Body (fun v n => n + v) (fun n => n * 2) (fun n => n + 1)) 2 0
      = (tick2Body (fun v n => n + v) (fun n => n * 2) (fun n => n + 1))^[2] 0 :=
  (C10_tick2_iterations (fun v n => n + v) (fun n => n * 2) (fun n => n + 1) 0 2).1
    (by norm_num) (by norm_num)
